import Mathlib

/-!
Shallow embedding of the ostree repo-finder core
(src/libostree/ostree-repo-finder.c, ostree-repo-finder-config.c and the
mount-based finder), together with proofs about the embedded definitions.

Machine integers are modelled as `Int`/`Nat` with explicit two's-complement
truncation (`wrap32`) at the points where the C code converts wider values to
`gint`.  C strings are modelled as `String`s whose bytes are the `Char.toNat`
codes of their characters (all names appearing in the claims are ASCII, so
this is byte-faithful); the absence of interior NUL bytes in a C string is
carried as an explicit hypothesis where a proof needs it.
-/

/-- One discovery outcome, embedding `OstreeRepoFinderResult`: the remote is
represented by its identifying name (`result->remote->name`), `priority` is
the `gint` field, `refs` is the list of refs the result claims (the
`supported_refs` array the backends build; `g_hash_table_size` of the
`ref_to_checksum` map is its length), and `summary_last_modified` is the
`guint64` timestamp. -/
structure OstreeRepoFinderResult where
  remote_name : String
  priority : Int
  refs : List String
  summary_last_modified : Nat
deriving DecidableEq, Repr

/-- Two's-complement truncation of an integer to a signed 32-bit value: the
value a C implementation produces when converting a wider integer to `gint`. -/
def wrap32 (n : Int) : Int :=
  (n + 2147483648) % 4294967296 - 2147483648

/-- Byte sequence of a C string (ASCII-faithful for the names in question). -/
def strBytes (s : String) : List Nat :=
  s.data.map Char.toNat

/-- Byte-wise C `strcmp` on byte lists: returns the difference of the first
differing bytes (the terminating NUL of the shorter string counting as 0). -/
def c_strcmp : List Nat → List Nat → Int
  | [], [] => 0
  | [], b :: _ => 0 - (b : Int)
  | a :: _, [] => (a : Int) - 0
  | a :: as, b :: bs => if a = b then c_strcmp as bs else (a : Int) - (b : Int)

/-- Model of `g_strcmp0` on two non-NULL C strings. -/
def g_strcmp0 (a b : String) : Int :=
  c_strcmp (strBytes a) (strBytes b)

/-- Model of `g_str_is_ascii`: every byte of the string has its high bit
unset, i.e. is `< 128`.  (This accepts ASCII control characters.) -/
def g_str_is_ascii (s : String) : Bool :=
  s.data.all (fun c => c.toNat < 128)

/-- Embeds `is_valid_ref_name` (ostree-repo-finder.c:44): the string is
non-NULL (structural here), non-empty and `g_str_is_ascii`. -/
def is_valid_ref_name (s : String) : Bool :=
  (!(s == "")) && g_str_is_ascii s

/-- Embeds `is_valid_ref_array` (ostree-repo-finder.c:51): the array is
non-NULL (structural), non-empty, and every element is a valid ref name. -/
def is_valid_ref_array (refs : List String) : Bool :=
  match refs with
  | [] => false
  | _ => refs.all is_valid_ref_name

/-- Embeds `ostree_repo_finder_result_compare` (ostree-repo-finder.c:456).
The C function returns `gint`; the two subtractions whose operands are wider
than `gint` (`guint64` timestamps, `guint` hash-table sizes) pass through the
implementation-defined narrowing conversion, modelled by `wrap32`.  The
intermediate `guint64` difference of the timestamps is taken modulo `2^64`,
which `wrap32` absorbs because `2^32` divides `2^64`. -/
def ostree_repo_finder_result_compare (a b : OstreeRepoFinderResult) : Int :=
  if a.priority ≠ b.priority then
    wrap32 (a.priority - b.priority)
  else if a.summary_last_modified ≠ 0 ∧ b.summary_last_modified ≠ 0 ∧
      a.summary_last_modified ≠ b.summary_last_modified then
    wrap32 ((a.summary_last_modified : Int) - (b.summary_last_modified : Int))
  else if a.refs.length ≠ b.refs.length then
    wrap32 (wrap32 (a.refs.length : Int) - wrap32 (b.refs.length : Int))
  else
    g_strcmp0 a.remote_name b.remote_name

/-- Strict byte-lexicographic order on byte lists (a proper prefix sorts
first), used to phrase the specification's "lexicographically ascending". -/
def bytesLt : List Nat → List Nat → Bool
  | [], [] => false
  | [], _ :: _ => true
  | _ :: _, [] => false
  | a :: as, b :: bs => if a < b then true else if b < a then false else bytesLt as bs

/-- Definition following the specification's words for the §4.4 comparator
cascade (for the refinement claim): ascending by priority; then, if both
timestamps are non-zero and differ, ascending by timestamp; then ascending by
number of refs claimed; then lexicographically ascending by remote name. -/
def spec_result_order (a b : OstreeRepoFinderResult) : Ordering :=
  if a.priority < b.priority then .lt
  else if b.priority < a.priority then .gt
  else if a.summary_last_modified ≠ 0 ∧ b.summary_last_modified ≠ 0 ∧
      a.summary_last_modified ≠ b.summary_last_modified then
    (if a.summary_last_modified < b.summary_last_modified then .lt else .gt)
  else if a.refs.length < b.refs.length then .lt
  else if b.refs.length < a.refs.length then .gt
  else if strBytes a.remote_name = strBytes b.remote_name then .eq
  else if bytesLt (strBytes a.remote_name) (strBytes b.remote_name) then .lt
  else .gt

theorem wrap32_eq_self (x : Int) (h : x.natAbs < 2147483648) : wrap32 x = x := by
  unfold wrap32
  omega

theorem c_strcmp_self (x : List Nat) : c_strcmp x x = 0 := by
  induction x with
  | nil => rfl
  | cons a as ih => simp [c_strcmp, ih]

theorem c_strcmp_antisymm (x y : List Nat) : c_strcmp x y = - c_strcmp y x := by
  induction x generalizing y with
  | nil =>
    cases y with
    | nil => rfl
    | cons b bs => simp [c_strcmp]
  | cons a as ih =>
    cases y with
    | nil => simp [c_strcmp]
    | cons b bs =>
      by_cases hab : a = b
      · subst hab
        simpa [c_strcmp] using ih bs
      · have hba : ¬ (b = a) := fun h => hab h.symm
        simp [c_strcmp, hab, hba]

theorem c_strcmp_neg_of_bytesLt (x y : List Nat) (hy : 0 ∉ y)
    (h : bytesLt x y = true) : c_strcmp x y < 0 := by
  induction x generalizing y with
  | nil =>
    cases y with
    | nil => simp [bytesLt] at h
    | cons b bs =>
      have hb : b ≠ 0 := by
        intro hb0
        exact hy (by simp [hb0])
      simp [c_strcmp]
      omega
  | cons a as ih =>
    cases y with
    | nil => simp [bytesLt] at h
    | cons b bs =>
      by_cases hab : a < b
      · have hne : ¬ (a = b) := Nat.ne_of_lt hab
        simp [c_strcmp, hne]
        omega
      · by_cases hba : b < a
        · simp [bytesLt, hab, hba] at h
        · have heq : a = b := Nat.le_antisymm (Nat.le_of_not_lt hba) (Nat.le_of_not_lt hab)
          subst heq
          have hbs : 0 ∉ bs := fun hmem => hy (by simp [hmem])
          have h' : bytesLt as bs = true := by
            simpa [bytesLt, hab, hba] using h
          simpa [c_strcmp] using ih bs hbs h'

theorem bytesLt_total (x y : List Nat) (hne : x ≠ y) :
    bytesLt x y = true ∨ bytesLt y x = true := by
  induction x generalizing y with
  | nil =>
    cases y with
    | nil => exact absurd rfl hne
    | cons b bs => left; rfl
  | cons a as ih =>
    cases y with
    | nil => right; rfl
    | cons b bs =>
      by_cases hab : a < b
      · left; simp [bytesLt, hab]
      · by_cases hba : b < a
        · right; simp [bytesLt, hba]
        · have heq : a = b := Nat.le_antisymm (Nat.le_of_not_lt hba) (Nat.le_of_not_lt hab)
          subst heq
          have hne' : as ≠ bs := by
            intro h
            exact hne (by rw [h])
          rcases ih bs hne' with h | h
          · left; simpa [bytesLt, hab, hba] using h
          · right; simpa [bytesLt, hab, hba] using h

theorem c_strcmp_eq_zero_of_eq (x y : List Nat) (h : x = y) : c_strcmp x y = 0 := by
  subst h
  exact c_strcmp_self x

/-! ## Sorting (g_ptr_array_sort with sort_results_cb) -/

/-- Insert a result into a list sorted by `ostree_repo_finder_result_compare`. -/
def insertResultSorted (r : OstreeRepoFinderResult) :
    List OstreeRepoFinderResult → List OstreeRepoFinderResult
  | [] => [r]
  | x :: xs =>
    if ostree_repo_finder_result_compare r x ≤ 0 then r :: x :: xs
    else x :: insertResultSorted r xs

/-- Model of `g_ptr_array_sort (data->results, sort_results_cb)`: sort the
accumulated results with `ostree_repo_finder_result_compare`. -/
def sortResults (l : List OstreeRepoFinderResult) : List OstreeRepoFinderResult :=
  l.foldr insertResultSorted []

/-! ## The resolve_all aggregator (ostree-repo-finder.c:251-385) -/

/-- Error taxonomy surfaced by the aggregator entry point: a precondition
(`g_return_if_fail`) failure on bad input, or cancellation. -/
inductive GError where
  | InvalidArgument : GError
  | Cancelled : GError
deriving DecidableEq, Repr

/-- Aggregation-session state: `ResolveAllData` (the pending count and the
result accumulator) together with the list of deliveries the task has made
(`g_task_return_pointer` appends one delivery). -/
structure ResolveAllState where
  n_finders_pending : Nat
  results : List OstreeRepoFinderResult
  delivered : List (List OstreeRepoFinderResult)
deriving DecidableEq, Repr

/-- Embeds `resolve_all_finished_one` (ostree-repo-finder.c:353): decrement
the pending count; when it reaches zero, sort the accumulated results and
deliver them to the caller (the accumulator is stolen by the delivery). -/
def resolve_all_finished_one (s : ResolveAllState) : ResolveAllState :=
  let p := s.n_finders_pending - 1
  if p = 0 then
    { n_finders_pending := p, results := [],
      delivered := s.delivered ++ [sortResults s.results] }
  else
    { s with n_finders_pending := p }

/-- Embeds `resolve_all_cb` (ostree-repo-finder.c:324): on a backend error,
log and keep the accumulator unchanged; on success, concatenate the backend's
results onto the accumulator; in both cases count one completion. -/
def resolve_all_cb (outcome : Except Unit (List OstreeRepoFinderResult))
    (s : ResolveAllState) : ResolveAllState :=
  resolve_all_finished_one
    (match outcome with
     | .error _ => s
     | .ok rs => { s with results := s.results ++ rs })

/-- Session state right after `resolve_all_async` allocates `ResolveAllData`:
the pending count starts at 1 (guarding the setup loop) plus one per started
backend. -/
def resolve_all_start (n : Nat) : ResolveAllState :=
  { n_finders_pending := 1 + n, results := [], delivered := [] }

/-- Process backend completions in arrival order. -/
def runCallbacks (os : List (Except Unit (List OstreeRepoFinderResult)))
    (s : ResolveAllState) : ResolveAllState :=
  os.foldl (fun st o => resolve_all_cb o st) s

/-- Concatenation of the successful backends' result lists, in backend order. -/
def succResults : List (Except Unit (List OstreeRepoFinderResult)) →
    List OstreeRepoFinderResult
  | [] => []
  | .ok rs :: os => rs ++ succResults os
  | .error _ :: os => succResults os

/-- Deliveries made by a full `resolve_all` session over the given backend
outcomes: the setup loop's own `resolve_all_finished_one` call runs first,
then each backend completion is processed. -/
def resolve_all_run (os : List (Except Unit (List OstreeRepoFinderResult))) :
    List (List OstreeRepoFinderResult) :=
  (runCallbacks os (resolve_all_finished_one (resolve_all_start os.length))).delivered

/-- Embeds `ostree_repo_finder_resolve_all_async` (ostree-repo-finder.c:251).
A backend is modelled by its resolve behaviour on a refs array.  The first
component records the refs array each invoked backend was called with (empty
when validation rejects the call, since the `g_return_if_fail` checks run
before any backend is invoked); the second is the call's outcome, the
precondition failures surfacing as `InvalidArgument`. -/
def ostree_repo_finder_resolve_all_async
    (finders : List (List String → Except Unit (List OstreeRepoFinderResult)))
    (refs : List String) :
    List (List String) × Except GError (List (List OstreeRepoFinderResult)) :=
  if finders.isEmpty then ([], .error .InvalidArgument)
  else if is_valid_ref_array refs = false then ([], .error .InvalidArgument)
  else (finders.map (fun _ => refs),
        .ok (resolve_all_run (finders.map (fun f => f refs))))

/-! ## Grouping of per-ref successes (GHashTable keyed by repo URI / name)

The backends accumulate, per canonical key, the array of request refs that
resolved to that key (`repo_uri_to_refs` / `repo_name_to_refs`).  The hash
table is modelled as an association list in first-insertion order; the values
are `GPtrArray`s grown by appending. -/

/-- Add `val` to the group of `key`: append to the existing entry if the key
is present (the `g_hash_table_lookup` hit), otherwise create a new singleton
entry (the `g_hash_table_insert` path). -/
def insertGroup (groups : List (String × List String)) (key val : String) :
    List (String × List String) :=
  match groups with
  | [] => [(key, [val])]
  | (k, vs) :: rest =>
    if k = key then (k, vs ++ [val]) :: rest
    else (k, vs) :: insertGroup rest key val

/-- Association-list lookup, modelling `g_hash_table_lookup`. -/
def groupLookup : List (String × List String) → String → Option (List String)
  | [], _ => none
  | (k, vs) :: rest, key => if k = key then some vs else groupLookup rest key

/-- Fold a list of key/value pairs into a group table, starting from `acc`. -/
def groupFoldFrom (acc : List (String × List String))
    (ps : List (String × String)) : List (String × List String) :=
  ps.foldl (fun a kv => insertGroup a kv.1 kv.2) acc

/-- Values contributed to `key` by the pair list, in order. -/
def collectVals (ps : List (String × String)) (key : String) : List String :=
  (ps.filter (fun kv => kv.1 = key)).map (fun kv => kv.2)

/-- Extend an optional group with further values (no-op when both are empty). -/
def optExtend (o : Option (List String)) (vs : List String) : Option (List String) :=
  match o, vs with
  | none, [] => none
  | _, _ => some (o.getD [] ++ vs)

/-! ## The mount-based backend (ostree_repo_finder_mount_resolve_async) -/

/-- Fixed priority carried by every mount-backend result (part_000:104). -/
def mount_backend_priority : Int := 50

/-- Fixed priority carried by every config-backend result
(ostree-repo-finder-config.c:95). -/
def config_backend_priority : Int := 100

/-- Outcome of `glnx_fstatat` on `.ostree/repos/<ref>` for one ref: whether
the resolved target is a directory, the device it lives on, and the
`realpath` canonicalisation of the repository path. -/
structure ProbeInfo where
  isDir : Bool
  st_dev : Nat
  canonicalPath : String
deriving DecidableEq, Repr

/-- One mounted volume as the mount backend observes it: the drive/mount
presence and removability flags, whether the mount root, its `.ostree/repos`
subdirectory and the root `fstat` can be opened/queried, the device of the
mount root, and the per-ref probe outcome (`none` models a failed
`glnx_fstatat`). -/
structure Volume where
  hasDrive : Bool
  hasMount : Bool
  removable : Bool
  rootOpenOk : Bool
  reposOpenOk : Bool
  fstatOk : Bool
  mountDev : Nat
  probe : String → Option ProbeInfo

/-- Per-ref resolution on one volume (part_000:190-241): a failed stat, a
non-directory target, or a target on a different device than the mount root
each skip the ref; otherwise the ref resolves to the `file://` URI over the
canonicalised repository path. -/
def resolvedRepoUri (v : Volume) (r : String) : Option String :=
  match v.probe r with
  | none => none
  | some info =>
    if info.isDir = false then none
    else if info.st_dev ≠ v.mountDev then none
    else some (String.append "file://" info.canonicalPath)

/-- The `repo_uri_to_refs` table built for one volume: each request ref that
resolves contributes itself under its canonical repository URI. -/
def volumeGroups (refs : List String) (v : Volume) : List (String × List String) :=
  refs.foldl
    (fun acc r =>
      match resolvedRepoUri v r with
      | none => acc
      | some uri => insertGroup acc uri r)
    []

/-- A mount-backend result for one canonical repository URI (part_000:246-267):
the remote is named by the URI, the priority is the backend constant, and the
summary timestamp is left 0 (unknown freshness). -/
def mkMountResult (uri : String) (rs : List String) : OstreeRepoFinderResult :=
  { remote_name := uri, priority := mount_backend_priority,
    refs := rs, summary_last_modified := 0 }

/-- Results contributed by one volume (part_000:112-269): the volume is
skipped wholesale when it lacks a drive or mount, is not removable, or its
mount root / `.ostree/repos` directory / root `fstat` cannot be processed;
otherwise one result per distinct canonical repository URI. -/
def processVolume (refs : List String) (v : Volume) : List OstreeRepoFinderResult :=
  if v.hasDrive = false ∨ v.hasMount = false then []
  else if v.removable = false then []
  else if v.rootOpenOk = false then []
  else if v.reposOpenOk = false then []
  else if v.fstatOk = false then []
  else (volumeGroups refs v).map (fun g => mkMountResult g.1 g.2)

/-- Concatenate the per-volume results in volume order. -/
def mountResultsOfVolumes (refs : List String) : List Volume → List OstreeRepoFinderResult
  | [] => []
  | v :: vs => processVolume refs v ++ mountResultsOfVolumes refs vs

/-- Embeds `ostree_repo_finder_mount_resolve_async` (part_000:92-272): scan
every volume, each one contributing zero or more results; the call itself
always completes successfully (only cancellation, not modelled, can fail it). -/
def ostree_repo_finder_mount_resolve_async (refs : List String)
    (volumes : List Volume) : Except Unit (List OstreeRepoFinderResult) :=
  .ok (mountResultsOfVolumes refs volumes)

/-! ## The config-based backend (ostree_repo_finder_config_resolve_async) -/

/-- One configured remote: its name and, when `ostree_repo_remote_list_refs`
succeeds, the set of refs it advertises (`none` models that call failing, in
which case the remote is skipped). -/
structure ConfigRemote where
  name : String
  remote_refs : Option (List String)

/-- The `repo_name_to_refs` table (ostree-repo-finder-config.c:110-151): for
each remote whose advertised refs could be listed, every request ref
contained in them is appended under the remote's name. -/
def configGroups (refs : List String) (remotes : List ConfigRemote) :
    List (String × List String) :=
  remotes.foldl
    (fun acc rem =>
      match rem.remote_refs with
      | none => acc
      | some rrefs =>
        refs.foldl
          (fun acc2 r => if r ∈ rrefs then insertGroup acc2 rem.name r else acc2)
          acc)
    []

/-- A config-backend result for one remote name. -/
def mkConfigResult (n : String) (rs : List String) : OstreeRepoFinderResult :=
  { remote_name := n, priority := config_backend_priority,
    refs := rs, summary_last_modified := 0 }

/-- The config backend's aggregation loop
(ostree-repo-finder-config.c:153-177): one result per grouped remote whose
inherited configuration can be resolved (`inheritedOk` models
`_ostree_repo_get_remote_inherited`). -/
def configResults (refs : List String) (remotes : List ConfigRemote)
    (inheritedOk : String → Bool) : List OstreeRepoFinderResult :=
  (configGroups refs remotes).filterMap
    (fun g => if inheritedOk g.1 then some (mkConfigResult g.1 g.2) else none)

/-- Embeds `ostree_repo_finder_config_resolve_async`
(ostree-repo-finder-config.c:85-180): group the matching request refs by
remote name, then emit one result per remote; the call always completes
successfully. -/
def ostree_repo_finder_config_resolve_async (refs : List String)
    (remotes : List ConfigRemote) (inheritedOk : String → Bool) :
    Except Unit (List OstreeRepoFinderResult) :=
  .ok (configResults refs remotes inheritedOk)

/-! ## Aggregator lemmas -/

/-- The results one completion callback contributes to the accumulator. -/
def cbContrib : Except Unit (List OstreeRepoFinderResult) → List OstreeRepoFinderResult
  | .ok rs => rs
  | .error _ => []

theorem succResults_cons (o : Except Unit (List OstreeRepoFinderResult))
    (os : List (Except Unit (List OstreeRepoFinderResult))) :
    succResults (o :: os) = cbContrib o ++ succResults os := by
  cases o <;> rfl

theorem succResults_eq_nil (os : List (Except Unit (List OstreeRepoFinderResult)))
    (h : ∀ o ∈ os, o.isOk = false) : succResults os = [] := by
  induction os with
  | nil => rfl
  | cons o os ih =>
    cases o with
    | error e =>
      simpa [succResults] using ih (fun o ho => h o (List.mem_cons_of_mem _ ho))
    | ok rs =>
      have := h (.ok rs) (List.mem_cons_self _ _)
      simp [Except.isOk, Except.toBool] at this

theorem resolve_all_cb_of_two_le (o : Except Unit (List OstreeRepoFinderResult))
    (s : ResolveAllState) (h : 2 ≤ s.n_finders_pending) :
    resolve_all_cb o s =
      { n_finders_pending := s.n_finders_pending - 1,
        results := s.results ++ cbContrib o, delivered := s.delivered } := by
  have hne : ¬ (s.n_finders_pending - 1 = 0) := by omega
  cases o with
  | error e => simp [resolve_all_cb, resolve_all_finished_one, cbContrib, hne]
  | ok rs => simp [resolve_all_cb, resolve_all_finished_one, cbContrib, hne]

theorem resolve_all_cb_of_one (o : Except Unit (List OstreeRepoFinderResult))
    (s : ResolveAllState) (h : s.n_finders_pending = 1) :
    resolve_all_cb o s =
      { n_finders_pending := 0, results := [],
        delivered := s.delivered ++ [sortResults (s.results ++ cbContrib o)] } := by
  cases o with
  | error e => simp [resolve_all_cb, resolve_all_finished_one, cbContrib, h]
  | ok rs => simp [resolve_all_cb, resolve_all_finished_one, cbContrib, h]

theorem resolve_all_cb_pending (o : Except Unit (List OstreeRepoFinderResult))
    (s : ResolveAllState) :
    (resolve_all_cb o s).n_finders_pending = s.n_finders_pending - 1 := by
  cases o with
  | error e =>
    simp only [resolve_all_cb, resolve_all_finished_one]
    split <;> simp
  | ok rs =>
    simp only [resolve_all_cb, resolve_all_finished_one]
    split <;> simp

theorem runCallbacks_cons (o : Except Unit (List OstreeRepoFinderResult))
    (os : List (Except Unit (List OstreeRepoFinderResult))) (s : ResolveAllState) :
    runCallbacks (o :: os) s = runCallbacks os (resolve_all_cb o s) := rfl

theorem runCallbacks_pending (os : List (Except Unit (List OstreeRepoFinderResult)))
    (s : ResolveAllState) :
    (runCallbacks os s).n_finders_pending = s.n_finders_pending - os.length := by
  induction os generalizing s with
  | nil => simp [runCallbacks]
  | cons o os ih =>
    rw [runCallbacks_cons, ih, resolve_all_cb_pending]
    simp only [List.length_cons]
    omega

theorem runCallbacks_delivered_of_lt
    (os : List (Except Unit (List OstreeRepoFinderResult))) (s : ResolveAllState)
    (h : os.length < s.n_finders_pending) :
    (runCallbacks os s).delivered = s.delivered := by
  induction os generalizing s with
  | nil => rfl
  | cons o os ih =>
    have h2 : 2 ≤ s.n_finders_pending := by
      simp at h
      omega
    rw [runCallbacks_cons, resolve_all_cb_of_two_le o s h2, ih]
    simp at h ⊢
    omega

theorem runCallbacks_delivered_of_eq
    (os : List (Except Unit (List OstreeRepoFinderResult))) (s : ResolveAllState)
    (hpos : 0 < os.length) (h : s.n_finders_pending = os.length) :
    (runCallbacks os s).delivered
      = s.delivered ++ [sortResults (s.results ++ succResults os)] := by
  induction os generalizing s with
  | nil => simp at hpos
  | cons o os ih =>
    cases os with
    | nil =>
      have h1 : s.n_finders_pending = 1 := by simpa using h
      rw [runCallbacks_cons, resolve_all_cb_of_one o s h1]
      simp [runCallbacks, succResults_cons, succResults]
    | cons o2 os2 =>
      have h2 : 2 ≤ s.n_finders_pending := by
        rw [h]
        simp only [List.length_cons]
        omega
      rw [runCallbacks_cons, resolve_all_cb_of_two_le o s h2]
      rw [ih]
      · simp [succResults_cons]
      · simp
      · simp at h ⊢
        omega

theorem resolve_all_run_eq (os : List (Except Unit (List OstreeRepoFinderResult)))
    (h : os ≠ []) : resolve_all_run os = [sortResults (succResults os)] := by
  have hpos : 0 < os.length := List.length_pos.mpr h
  have hne : ¬ (1 + os.length - 1 = 0) := by omega
  have hstart : resolve_all_finished_one (resolve_all_start os.length)
      = { n_finders_pending := os.length, results := [], delivered := [] } := by
    simp [resolve_all_finished_one, resolve_all_start, hne, h]
  rw [resolve_all_run, hstart]
  rw [runCallbacks_delivered_of_eq os _ hpos rfl]
  simp

/-- C1: with at least one failing and at least one succeeding backend, the
per-backend failures are absorbed (failing backends contribute zero results)
and `resolve_all` returns the sorted concatenation of the successful
backends' result lists rather than an error; when every backend fails it
returns an empty valid result list, not an error. -/
theorem C1_resolve_all_absorbs_backend_failures
    (finders : List (List String → Except Unit (List OstreeRepoFinderResult)))
    (refs : List String)
    (hf : finders ≠ []) (hr : is_valid_ref_array refs = true) :
    ((∃ f ∈ finders, (f refs).isOk = false) → (∃ f ∈ finders, (f refs).isOk = true) →
      (ostree_repo_finder_resolve_all_async finders refs).2
        = .ok [sortResults (succResults (finders.map (fun f => f refs)))])
    ∧ ((∀ f ∈ finders, (f refs).isOk = false) →
      (ostree_repo_finder_resolve_all_async finders refs).2 = .ok [[]]) := by
  have hfe : finders.isEmpty = false := by
    cases finders with
    | nil => exact absurd rfl hf
    | cons a l => rfl
  have hrun : (ostree_repo_finder_resolve_all_async finders refs).2
      = .ok (resolve_all_run (finders.map (fun f => f refs))) := by
    simp [ostree_repo_finder_resolve_all_async, hfe, hr]
  have hmapne : finders.map (fun f => f refs) ≠ [] := by
    cases finders with
    | nil => exact absurd rfl hf
    | cons a l => simp
  constructor
  · intro _ _
    rw [hrun, resolve_all_run_eq _ hmapne]
  · intro hall
    have hsucc : succResults (finders.map (fun f => f refs)) = [] := by
      apply succResults_eq_nil
      intro o ho
      rcases List.mem_map.mp ho with ⟨f, hfmem, hfo⟩
      rw [← hfo]
      exact hall f hfmem
    rw [hrun, resolve_all_run_eq _ hmapne, hsucc]
    rfl

/-- Concrete result used by the witnesses. -/
def wRes : OstreeRepoFinderResult :=
  { remote_name := "file:///repo", priority := 50, refs := ["a"],
    summary_last_modified := 0 }

/-- A backend that always fails. -/
def wFailBackend : List String → Except Unit (List OstreeRepoFinderResult) :=
  fun _ => .error ()

/-- A backend that always returns `[wRes]`. -/
def wOkBackend : List String → Except Unit (List OstreeRepoFinderResult) :=
  fun _ => .ok [wRes]

theorem C1_resolve_all_absorbs_backend_failures_witness :
    (ostree_repo_finder_resolve_all_async [wFailBackend, wOkBackend] ["a"]).2
      = .ok [[wRes]]
    ∧ (ostree_repo_finder_resolve_all_async [wFailBackend] ["a"]).2 = .ok [[]] := by
  constructor
  · have h := (C1_resolve_all_absorbs_backend_failures [wFailBackend, wOkBackend] ["a"]
      (List.cons_ne_nil _ _) (by decide)).1
      ⟨wFailBackend, List.mem_cons_self _ _, rfl⟩
      ⟨wOkBackend, List.mem_cons_of_mem _ (List.mem_cons_self _ _), rfl⟩
    rw [h]
    rfl
  · exact (C1_resolve_all_absorbs_backend_failures [wFailBackend] ["a"]
      (List.cons_ne_nil _ _) (by decide)).2
      (fun f hf => by
        rcases List.mem_singleton.mp hf with rfl
        rfl)

/-- C3: the aggregation session follows the state machine
`Pending(n_outstanding)` with one decrement per backend completion (plus the
setup guard's own decrement, which runs first): after `k` of the `n` backend
completions have been processed the pending count is `n - k` and nothing has
been delivered (so the count never reaches zero while a started backend is
outstanding), and once all `n` completions have been processed the count is
zero and exactly one delivery has been made. -/
theorem C3_resolve_all_state_machine
    (os : List (Except Unit (List OstreeRepoFinderResult))) (k : Nat)
    (hk : k ≤ os.length) :
    (runCallbacks (os.take k)
        (resolve_all_finished_one (resolve_all_start os.length))).n_finders_pending
      = os.length - k
    ∧ (runCallbacks (os.take k)
        (resolve_all_finished_one (resolve_all_start os.length))).delivered.length
      = (if k = os.length then 1 else 0) := by
  by_cases hzero : os.length = 0
  · have hk0 : k = 0 := by omega
    subst hk0
    have hone : 1 + os.length - 1 = 0 := by omega
    simp [runCallbacks, resolve_all_finished_one, resolve_all_start, hone, hzero]
  · have hne : ¬ (1 + os.length - 1 = 0) := by omega
    have hosne : os ≠ [] := by
      intro he
      rw [he] at hzero
      exact hzero rfl
    have hstart : resolve_all_finished_one (resolve_all_start os.length)
        = { n_finders_pending := os.length, results := [], delivered := [] } := by
      simp [resolve_all_finished_one, resolve_all_start, hne, hosne]
    rw [hstart]
    have hlen : (os.take k).length = k := by
      rw [List.length_take]
      omega
    constructor
    · rw [runCallbacks_pending, hlen]
    · by_cases hkn : k = os.length
      · have hpos : 0 < (os.take k).length := by
          rw [hlen]
          omega
        rw [runCallbacks_delivered_of_eq _ _ hpos (by rw [hlen]; exact hkn.symm)]
        simp [hkn]
      · have hlt : (os.take k).length < os.length := by omega
        rw [runCallbacks_delivered_of_lt _ _ (by simpa using hlt)]
        simp [hkn]

theorem C3_resolve_all_state_machine_witness :
    (runCallbacks ([Except.error (), Except.ok [wRes]].take 1)
        (resolve_all_finished_one (resolve_all_start
          ([Except.error (), Except.ok [wRes]] :
            List (Except Unit (List OstreeRepoFinderResult))).length))).n_finders_pending = 1
    ∧ (runCallbacks ([Except.error (), Except.ok [wRes]].take 1)
        (resolve_all_finished_one (resolve_all_start
          ([Except.error (), Except.ok [wRes]] :
            List (Except Unit (List OstreeRepoFinderResult))).length))).delivered.length = 0 := by
  simpa using C3_resolve_all_state_machine [Except.error (), Except.ok [wRes]] 1 (by decide)

theorem is_valid_ref_array_eq_false_of_mem (refs : List String) (r : String)
    (hmem : r ∈ refs) (hval : is_valid_ref_name r = false) :
    is_valid_ref_array refs = false := by
  cases refs with
  | nil => rfl
  | cons a l =>
    simp only [is_valid_ref_array]
    rw [List.all_eq_false]
    exact ⟨r, hmem, by simp [hval]⟩

/-- C7: a call to `resolve_all` with an empty finders array, an empty refs
array, or a refs array containing an invalid ref name fails with an
`InvalidArgument` error surfaced synchronously (the `g_return_if_fail`
precondition checks), before any backend is invoked or any asynchronous work
starts — the recorded backend invocation list is empty. -/
theorem C7_resolve_all_rejects_invalid_input
    (finders : List (List String → Except Unit (List OstreeRepoFinderResult)))
    (refs : List String)
    (h : finders = [] ∨ refs = [] ∨ ∃ r ∈ refs, is_valid_ref_name r = false) :
    ostree_repo_finder_resolve_all_async finders refs
      = ([], Except.error GError.InvalidArgument) := by
  rcases h with h | h | ⟨r, hmem, hval⟩
  · subst h
    rfl
  · subst h
    by_cases hfe : finders.isEmpty
    · simp [ostree_repo_finder_resolve_all_async, hfe]
    · simp [ostree_repo_finder_resolve_all_async, hfe, is_valid_ref_array]
  · have harr : is_valid_ref_array refs = false :=
      is_valid_ref_array_eq_false_of_mem refs r hmem hval
    by_cases hfe : finders.isEmpty
    · simp [ostree_repo_finder_resolve_all_async, hfe]
    · simp [ostree_repo_finder_resolve_all_async, hfe, harr]

theorem C7_resolve_all_rejects_invalid_input_witness :
    ostree_repo_finder_resolve_all_async
        ([] : List (List String → Except Unit (List OstreeRepoFinderResult))) ["a"]
      = ([], Except.error GError.InvalidArgument)
    ∧ ostree_repo_finder_resolve_all_async [wOkBackend] []
      = ([], Except.error GError.InvalidArgument)
    ∧ ostree_repo_finder_resolve_all_async [wOkBackend] ["é"]
      = ([], Except.error GError.InvalidArgument) := by
  refine ⟨?_, ?_, ?_⟩
  · exact C7_resolve_all_rejects_invalid_input _ _ (Or.inl rfl)
  · exact C7_resolve_all_rejects_invalid_input _ _ (Or.inr (Or.inl rfl))
  · exact C7_resolve_all_rejects_invalid_input _ _
      (Or.inr (Or.inr ⟨"é", List.mem_singleton.mpr rfl, by decide⟩))

/-! ## Comparator claims -/

/-- C2 (amended): the comparator realises the specification's key cascade
whenever every stage's comparison is 32-bit representable: the priorities
differ by less than `2^31`, the timestamps differ by less than `2^31`, and
both ref counts are below `2^31` (outside those bounds the `gint`-truncated
differences misorder or equate distinct results); the remote names are
NUL-free C strings. -/
theorem C2_comparator_cascade (a b : OstreeRepoFinderResult)
    (hp : (a.priority - b.priority).natAbs < 2147483648)
    (ht : ((a.summary_last_modified : Int) - (b.summary_last_modified : Int)).natAbs
      < 2147483648)
    (hra : a.refs.length < 2147483648) (hrb : b.refs.length < 2147483648)
    (hna : 0 ∉ strBytes a.remote_name) (hnb : 0 ∉ strBytes b.remote_name) :
    (ostree_repo_finder_result_compare a b < 0 ↔ spec_result_order a b = .lt)
    ∧ (ostree_repo_finder_result_compare a b = 0 ↔ spec_result_order a b = .eq)
    ∧ (0 < ostree_repo_finder_result_compare a b ↔ spec_result_order a b = .gt) := by
  rcases lt_trichotomy a.priority b.priority with hpr | hpr | hpr
  · have hne : a.priority ≠ b.priority := ne_of_lt hpr
    have hcmp : ostree_repo_finder_result_compare a b = a.priority - b.priority := by
      rw [ostree_repo_finder_result_compare, if_pos hne, wrap32_eq_self _ hp]
    have hord : spec_result_order a b = .lt := by
      rw [spec_result_order, if_pos hpr]
    rw [hcmp, hord]
    refine ⟨⟨fun _ => rfl, fun _ => by omega⟩,
      ⟨fun h0 => absurd h0 (by omega), fun h0 => by simp at h0⟩,
      ⟨fun h0 => absurd h0 (by omega), fun h0 => by simp at h0⟩⟩
  · have hne : ¬ (a.priority ≠ b.priority) := by simp [hpr]
    have hnlt1 : ¬ (a.priority < b.priority) := by omega
    have hnlt2 : ¬ (b.priority < a.priority) := by omega
    by_cases htc : a.summary_last_modified ≠ 0 ∧ b.summary_last_modified ≠ 0 ∧
        a.summary_last_modified ≠ b.summary_last_modified
    · have hcmp : ostree_repo_finder_result_compare a b
          = (a.summary_last_modified : Int) - (b.summary_last_modified : Int) := by
        rw [ostree_repo_finder_result_compare, if_neg hne, if_pos htc,
          wrap32_eq_self _ ht]
      rcases Nat.lt_trichotomy a.summary_last_modified b.summary_last_modified
        with hts | hts | hts
      · have hord : spec_result_order a b = .lt := by
          rw [spec_result_order, if_neg hnlt1, if_neg hnlt2, if_pos htc, if_pos hts]
        rw [hcmp, hord]
        refine ⟨⟨fun _ => rfl, fun _ => by omega⟩,
          ⟨fun h0 => absurd h0 (by omega), fun h0 => by simp at h0⟩,
          ⟨fun h0 => absurd h0 (by omega), fun h0 => by simp at h0⟩⟩
      · exact absurd hts htc.2.2
      · have hntlt : ¬ (a.summary_last_modified < b.summary_last_modified) := by omega
        have hord : spec_result_order a b = .gt := by
          rw [spec_result_order, if_neg hnlt1, if_neg hnlt2, if_pos htc, if_neg hntlt]
        rw [hcmp, hord]
        refine ⟨⟨fun h0 => absurd h0 (by omega), fun h0 => by simp at h0⟩,
          ⟨fun h0 => absurd h0 (by omega), fun h0 => by simp at h0⟩,
          ⟨fun _ => rfl, fun _ => by omega⟩⟩
    · by_cases hrl : a.refs.length ≠ b.refs.length
      · have hwa : wrap32 (a.refs.length : Int) = (a.refs.length : Int) :=
          wrap32_eq_self _ (by simpa using hra)
        have hwb : wrap32 (b.refs.length : Int) = (b.refs.length : Int) :=
          wrap32_eq_self _ (by simpa using hrb)
        have hcmp : ostree_repo_finder_result_compare a b
            = (a.refs.length : Int) - (b.refs.length : Int) := by
          rw [ostree_repo_finder_result_compare, if_neg hne, if_neg htc, if_pos hrl,
            hwa, hwb, wrap32_eq_self _ (by omega)]
        rcases Nat.lt_trichotomy a.refs.length b.refs.length with hrc | hrc | hrc
        · have hord : spec_result_order a b = .lt := by
            rw [spec_result_order, if_neg hnlt1, if_neg hnlt2, if_neg htc, if_pos hrc]
          rw [hcmp, hord]
          refine ⟨⟨fun _ => rfl, fun _ => by omega⟩,
            ⟨fun h0 => absurd h0 (by omega), fun h0 => by simp at h0⟩,
            ⟨fun h0 => absurd h0 (by omega), fun h0 => by simp at h0⟩⟩
        · exact absurd hrc hrl
        · have hnrc : ¬ (a.refs.length < b.refs.length) := by omega
          have hord : spec_result_order a b = .gt := by
            rw [spec_result_order, if_neg hnlt1, if_neg hnlt2, if_neg htc,
              if_neg hnrc, if_pos hrc]
          rw [hcmp, hord]
          refine ⟨⟨fun h0 => absurd h0 (by omega), fun h0 => by simp at h0⟩,
            ⟨fun h0 => absurd h0 (by omega), fun h0 => by simp at h0⟩,
            ⟨fun _ => rfl, fun _ => by omega⟩⟩
      · have hrleq : a.refs.length = b.refs.length := by
          by_contra hcon
          exact hrl hcon
        have hnrc1 : ¬ (a.refs.length < b.refs.length) := by omega
        have hnrc2 : ¬ (b.refs.length < a.refs.length) := by omega
        have hcmp : ostree_repo_finder_result_compare a b
            = c_strcmp (strBytes a.remote_name) (strBytes b.remote_name) := by
          rw [ostree_repo_finder_result_compare, if_neg hne, if_neg htc, if_neg hrl]
          rfl
        by_cases hxy : strBytes a.remote_name = strBytes b.remote_name
        · have hord : spec_result_order a b = .eq := by
            rw [spec_result_order, if_neg hnlt1, if_neg hnlt2, if_neg htc,
              if_neg hnrc1, if_neg hnrc2, if_pos hxy]
          have hz : c_strcmp (strBytes a.remote_name) (strBytes b.remote_name) = 0 :=
            c_strcmp_eq_zero_of_eq _ _ hxy
          rw [hcmp, hord, hz]
          refine ⟨⟨fun h0 => absurd h0 (by omega), fun h0 => by simp at h0⟩,
            ⟨fun _ => rfl, fun _ => rfl⟩,
            ⟨fun h0 => absurd h0 (by omega), fun h0 => by simp at h0⟩⟩
        · by_cases hlt : bytesLt (strBytes a.remote_name) (strBytes b.remote_name) = true
          · have hord : spec_result_order a b = .lt := by
              rw [spec_result_order, if_neg hnlt1, if_neg hnlt2, if_neg htc,
                if_neg hnrc1, if_neg hnrc2, if_neg hxy, if_pos hlt]
            have hneg : c_strcmp (strBytes a.remote_name) (strBytes b.remote_name) < 0 :=
              c_strcmp_neg_of_bytesLt _ _ hnb hlt
            rw [hcmp, hord]
            refine ⟨⟨fun _ => rfl, fun _ => hneg⟩,
              ⟨fun h0 => absurd h0 (by omega), fun h0 => by simp at h0⟩,
              ⟨fun h0 => absurd h0 (by omega), fun h0 => by simp at h0⟩⟩
          · have hyx : bytesLt (strBytes b.remote_name) (strBytes a.remote_name) = true := by
              rcases bytesLt_total _ _ hxy with hcase | hcase
              · exact absurd hcase hlt
              · exact hcase
            have hord : spec_result_order a b = .gt := by
              rw [spec_result_order, if_neg hnlt1, if_neg hnlt2, if_neg htc,
                if_neg hnrc1, if_neg hnrc2, if_neg hxy, if_neg hlt]
            have hneg : c_strcmp (strBytes b.remote_name) (strBytes a.remote_name) < 0 :=
              c_strcmp_neg_of_bytesLt _ _ hna hyx
            have hpos : 0 < c_strcmp (strBytes a.remote_name) (strBytes b.remote_name) := by
              rw [c_strcmp_antisymm]
              omega
            rw [hcmp, hord]
            refine ⟨⟨fun h0 => absurd h0 (by omega), fun h0 => by simp at h0⟩,
              ⟨fun h0 => absurd h0 (by omega), fun h0 => by simp at h0⟩,
              ⟨fun _ => rfl, fun _ => hpos⟩⟩
  · have hne : a.priority ≠ b.priority := ne_of_gt hpr
    have hnlt1 : ¬ (a.priority < b.priority) := by omega
    have hcmp : ostree_repo_finder_result_compare a b = a.priority - b.priority := by
      rw [ostree_repo_finder_result_compare, if_pos hne, wrap32_eq_self _ hp]
    have hord : spec_result_order a b = .gt := by
      rw [spec_result_order, if_neg hnlt1, if_pos hpr]
    rw [hcmp, hord]
    refine ⟨⟨fun h0 => absurd h0 (by omega), fun h0 => by simp at h0⟩,
      ⟨fun h0 => absurd h0 (by omega), fun h0 => by simp at h0⟩,
      ⟨fun _ => rfl, fun _ => by omega⟩⟩

/-- Pair of results on which the comparator deviates from the specified
cascade: equal priorities, both timestamps non-zero and differing by exactly
`2^32`, so the truncated 64-bit difference is 0. -/
def c2a : OstreeRepoFinderResult :=
  { remote_name := "r", priority := 0, refs := ["x"], summary_last_modified := 1 }

/-- Counterexample partner of `c2a` (timestamp `2^32 + 1`). -/
def c2b : OstreeRepoFinderResult :=
  { remote_name := "r", priority := 0, refs := ["x"],
    summary_last_modified := 4294967297 }

theorem C2_comparator_cascade_cex :
    spec_result_order c2a c2b = .lt
    ∧ ostree_repo_finder_result_compare c2a c2b = 0 := by
  constructor
  · decide
  · decide

/-- Witness pair for the amended cascade theorem. -/
def c2wa : OstreeRepoFinderResult :=
  { remote_name := "alpha", priority := 50, refs := ["x"], summary_last_modified := 5 }

/-- Witness partner of `c2wa`. -/
def c2wb : OstreeRepoFinderResult :=
  { remote_name := "beta", priority := 100, refs := ["x", "y"],
    summary_last_modified := 10 }

theorem C2_comparator_cascade_witness :
    ostree_repo_finder_result_compare c2wa c2wb < 0 :=
  (C2_comparator_cascade c2wa c2wb (by decide) (by decide) (by decide) (by decide)
    (by decide) (by decide)).1.mpr (by decide)

/-- Pair of results breaking antisymmetry: equal priorities, timestamps `1`
and `2^31 + 1` (difference exactly `2^31`, whose 32-bit truncation is
negative in both subtraction orders). -/
def c9a : OstreeRepoFinderResult :=
  { remote_name := "r", priority := 0, refs := ["x"],
    summary_last_modified := 2147483649 }

/-- Counterexample partner of `c9a` (timestamp 1). -/
def c9b : OstreeRepoFinderResult :=
  { remote_name := "r", priority := 0, refs := ["x"], summary_last_modified := 1 }

/-- C9: `ostree_repo_finder_result_compare` is NOT antisymmetric under
argument swap — on `c9a`/`c9b` both comparison orders return a negative
value (each result is ordered strictly before the other), contradicting the
function's own documentation of a consistent ordering.  The `guint64`
timestamp difference is truncated to `gint`, and a difference of exactly
`2^31` is negative in both directions. -/
theorem C9_comparator_not_antisymmetric :
    ostree_repo_finder_result_compare c9a c9b < 0
    ∧ ostree_repo_finder_result_compare c9b c9a < 0 := by
  constructor
  · decide
  · decide

/-- C6 (amended): the mount backend's fixed priority (50) is numerically
lower than the config backend's (100), and the comparator sorts ascending by
priority, so for any mount-backend result `m` and config-backend result `c`
— tied or not on the remaining keys — the comparator orders `m` before `c`:
mount results take sort precedence over config results, not the reverse. -/
theorem C6_mount_sorts_before_config (m c : OstreeRepoFinderResult)
    (hm : m.priority = mount_backend_priority)
    (hc : c.priority = config_backend_priority) :
    ostree_repo_finder_result_compare m c < 0
    ∧ 0 < ostree_repo_finder_result_compare c m := by
  have hne1 : m.priority ≠ c.priority := by
    rw [hm, hc]
    decide
  have hne2 : c.priority ≠ m.priority := by
    rw [hm, hc]
    decide
  constructor
  · rw [ostree_repo_finder_result_compare, if_pos hne1, hm, hc]
    decide
  · rw [ostree_repo_finder_result_compare, if_pos hne2, hm, hc]
    decide

/-- Mount-backend result tied with `c6c` on every key other than priority. -/
def c6m : OstreeRepoFinderResult :=
  { remote_name := "r", priority := mount_backend_priority, refs := ["x"],
    summary_last_modified := 0 }

/-- Config-backend result tied with `c6m` on every key other than priority. -/
def c6c : OstreeRepoFinderResult :=
  { remote_name := "r", priority := config_backend_priority, refs := ["x"],
    summary_last_modified := 0 }

theorem C6_mount_sorts_before_config_cex :
    ¬ (ostree_repo_finder_result_compare c6c c6m < 0)
    ∧ ostree_repo_finder_result_compare c6c c6m = 50 := by
  constructor
  · decide
  · decide

theorem C6_mount_sorts_before_config_witness :
    ostree_repo_finder_result_compare c6m c6c < 0
    ∧ 0 < ostree_repo_finder_result_compare c6c c6m :=
  C6_mount_sorts_before_config c6m c6c rfl rfl

/-- A ref name consisting of the single ASCII control byte `0x01`. -/
def ctrlRef : String := "\x01"

theorem C8_ref_validator_cex :
    is_valid_ref_name ctrlRef = true
    ∧ ctrlRef ≠ ""
    ∧ ¬ (∀ c ∈ ctrlRef.data, 32 ≤ c.toNat ∧ c.toNat ≤ 126) := by
  constructor
  · decide
  · constructor
    · decide
    · decide

/-- C8 (amended): the ref validator returns true iff the name is non-empty
and consists entirely of ASCII bytes (every byte below 128), whether or not
they are printable; in particular a non-ASCII byte is rejected but an ASCII
control character is accepted. -/
theorem C8_ref_validator_ascii (s : String) :
    is_valid_ref_name s = true ↔ (s ≠ "" ∧ ∀ c ∈ s.data, c.toNat < 128) := by
  simp [is_valid_ref_name, g_str_is_ascii, List.all_eq_true]

/-! ## Grouping-table lemmas -/

theorem optExtend_nil (o : Option (List String)) : optExtend o [] = o := by
  cases o with
  | none => rfl
  | some xs => simp [optExtend]

theorem groupLookup_insertGroup (g : List (String × List String)) (k v key : String) :
    groupLookup (insertGroup g k v) key
      = if k = key then some ((groupLookup g key).getD [] ++ [v])
        else groupLookup g key := by
  induction g with
  | nil =>
    by_cases h : k = key
    · simp [insertGroup, groupLookup, h]
    · simp [insertGroup, groupLookup, h]
  | cons p rest ih =>
    obtain ⟨k0, vs0⟩ := p
    by_cases h0 : k0 = k
    · subst h0
      by_cases h1 : k0 = key
      · subst h1
        simp [insertGroup, groupLookup]
      · simp [insertGroup, groupLookup, h1]
    · by_cases h1 : k0 = key
      · subst h1
        have hkk : ¬ (k = k0) := fun he => h0 he.symm
        simp [insertGroup, groupLookup, h0, hkk]
      · simp [insertGroup, groupLookup, h0, h1, ih]

theorem collectVals_cons (k v : String) (ps : List (String × String)) (key : String) :
    collectVals ((k, v) :: ps) key
      = if k = key then v :: collectVals ps key else collectVals ps key := by
  by_cases h : k = key
  · simp [collectVals, List.filter_cons, h]
  · simp [collectVals, List.filter_cons, h]

theorem groupLookup_groupFoldFrom (ps : List (String × String))
    (acc : List (String × List String)) (key : String) :
    groupLookup (groupFoldFrom acc ps) key
      = optExtend (groupLookup acc key) (collectVals ps key) := by
  induction ps generalizing acc with
  | nil =>
    simp [groupFoldFrom, collectVals, optExtend_nil]
  | cons p ps ih =>
    obtain ⟨k, v⟩ := p
    have hstep : groupFoldFrom acc ((k, v) :: ps)
        = groupFoldFrom (insertGroup acc k v) ps := rfl
    rw [hstep, ih, groupLookup_insertGroup, collectVals_cons]
    by_cases hk : k = key
    · rw [if_pos hk, if_pos hk]
      cases ho : groupLookup acc key with
      | none => simp [optExtend]
      | some xs => simp [optExtend]
    · rw [if_neg hk, if_neg hk]

theorem insertGroup_keys (g : List (String × List String)) (k v : String) :
    (insertGroup g k v).map Prod.fst
      = if k ∈ g.map Prod.fst then g.map Prod.fst
        else g.map Prod.fst ++ [k] := by
  induction g with
  | nil => simp [insertGroup]
  | cons p rest ih =>
    obtain ⟨k0, vs0⟩ := p
    by_cases h0 : k0 = k
    · subst h0
      simp [insertGroup, List.mem_cons]
    · have hkne : ¬ (k = k0) := fun he => h0 he.symm
      by_cases hmem : k ∈ rest.map Prod.fst
      · rw [if_pos (by simp [List.mem_cons, hmem])]
        simp [insertGroup, h0, ih, hmem]
      · rw [if_neg (by simp [List.mem_cons, hkne, hmem])]
        simp [insertGroup, h0, ih, hmem]

theorem groupFoldFrom_keys_nodup (ps : List (String × String))
    (acc : List (String × List String)) (h : (acc.map Prod.fst).Nodup) :
    ((groupFoldFrom acc ps).map Prod.fst).Nodup := by
  induction ps generalizing acc with
  | nil => exact h
  | cons p ps ih =>
    have hstep : groupFoldFrom acc (p :: ps)
        = groupFoldFrom (insertGroup acc p.1 p.2) ps := rfl
    rw [hstep]
    apply ih
    rw [insertGroup_keys]
    by_cases hmem : p.1 ∈ acc.map Prod.fst
    · rw [if_pos hmem]
      exact h
    · rw [if_neg hmem]
      rw [List.nodup_append]
      exact ⟨h, List.nodup_singleton _, by
        intro a ha hb
        rw [List.mem_singleton] at hb
        subst hb
        exact hmem ha⟩

theorem groupLookup_eq_some_of_mem (g : List (String × List String)) (k : String)
    (vs : List String) (hnd : (g.map Prod.fst).Nodup) (hmem : (k, vs) ∈ g) :
    groupLookup g k = some vs := by
  induction g with
  | nil => simp at hmem
  | cons p rest ih =>
    obtain ⟨k0, vs0⟩ := p
    rw [List.map_cons] at hnd
    rcases List.nodup_cons.mp hnd with ⟨hn0, hnd'⟩
    rcases List.mem_cons.mp hmem with heq | hmem'
    · have hk : k0 = k := (congrArg Prod.fst heq).symm
      have hv : vs0 = vs := (congrArg Prod.snd heq).symm
      simp [groupLookup, hk, hv]
    · have hk0 : ¬ (k0 = k) := by
        intro he
        subst he
        exact hn0 (by simpa using List.mem_map_of_mem Prod.fst hmem')
      rw [groupLookup, if_neg hk0]
      exact ih hnd' hmem'

theorem mem_of_groupLookup_eq_some (g : List (String × List String)) (k : String)
    (vs : List String) (h : groupLookup g k = some vs) : (k, vs) ∈ g := by
  induction g with
  | nil => simp [groupLookup] at h
  | cons p rest ih =>
    obtain ⟨k0, vs0⟩ := p
    by_cases hk : k0 = k
    · subst hk
      rw [groupLookup, if_pos rfl] at h
      rcases Option.some.injEq _ _ ▸ h with hv
      have hv' : vs0 = vs := by
        injection h
      rw [← hv']
      exact List.mem_cons_self _ _
    · rw [groupLookup, if_neg hk] at h
      exact List.mem_cons_of_mem _ (ih h)

/-! ## Mount-backend lemmas -/

/-- The key/value pairs the mount backend's per-ref loop feeds into the
grouping table: one `(canonical URI, ref)` pair per resolving ref. -/
def mountPairs (v : Volume) (refs : List String) : List (String × String) :=
  refs.filterMap (fun r => (resolvedRepoUri v r).map (fun uri => (uri, r)))

theorem volumeGroups_fold_eq (refs : List String) (v : Volume)
    (acc : List (String × List String)) :
    refs.foldl
        (fun acc r =>
          match resolvedRepoUri v r with
          | none => acc
          | some uri => insertGroup acc uri r)
        acc
      = groupFoldFrom acc (mountPairs v refs) := by
  induction refs generalizing acc with
  | nil => rfl
  | cons r rest ih =>
    cases hu : resolvedRepoUri v r with
    | none =>
      rw [List.foldl_cons]
      have hpairs : mountPairs v (r :: rest) = mountPairs v rest := by
        simp [mountPairs, List.filterMap_cons, hu]
      rw [hpairs, ← ih]
      simp [hu]
    | some uri =>
      rw [List.foldl_cons]
      have hpairs : mountPairs v (r :: rest) = (uri, r) :: mountPairs v rest := by
        simp [mountPairs, List.filterMap_cons, hu]
      rw [hpairs]
      have hstep : groupFoldFrom acc ((uri, r) :: mountPairs v rest)
          = groupFoldFrom (insertGroup acc uri r) (mountPairs v rest) := rfl
      rw [hstep, ← ih]
      simp [hu]

theorem volumeGroups_eq (refs : List String) (v : Volume) :
    volumeGroups refs v = groupFoldFrom [] (mountPairs v refs) := by
  rw [volumeGroups]
  exact volumeGroups_fold_eq refs v []

/-- All five per-volume checks of the mount backend pass. -/
def volumeUsable (v : Volume) : Bool :=
  v.hasDrive && v.hasMount && v.removable && v.rootOpenOk && v.reposOpenOk && v.fstatOk

theorem processVolume_usable (refs : List String) (v : Volume)
    (h : volumeUsable v = true) :
    processVolume refs v
      = (volumeGroups refs v).map (fun g => mkMountResult g.1 g.2) := by
  rw [volumeUsable] at h
  simp only [Bool.and_eq_true] at h
  obtain ⟨⟨⟨⟨⟨h1, h2⟩, h3⟩, h4⟩, h5⟩, h6⟩ := h
  simp [processVolume, h1, h2, h3, h4, h5, h6]

theorem mem_processVolume (refs : List String) (v : Volume)
    (res : OstreeRepoFinderResult) (h : res ∈ processVolume refs v) :
    res ∈ (volumeGroups refs v).map (fun g => mkMountResult g.1 g.2) := by
  rw [processVolume] at h
  split at h
  · simp at h
  · split at h
    · simp at h
    · split at h
      · simp at h
      · split at h
        · simp at h
        · split at h
          · simp at h
          · exact h

theorem mem_collect_mountPairs (refs : List String) (v : Volume) (r u : String)
    (hr : r ∈ refs) (hu : resolvedRepoUri v r = some u) :
    r ∈ collectVals (mountPairs v refs) u := by
  have hp : (u, r) ∈ mountPairs v refs := by
    rw [mountPairs]
    exact List.mem_filterMap.mpr ⟨r, hr, by simp [hu]⟩
  rw [collectVals]
  exact List.mem_map.mpr ⟨(u, r), List.mem_filter.mpr ⟨hp, by simp⟩, rfl⟩

theorem collect_mountPairs_sub (refs : List String) (v : Volume) (x u : String)
    (hx : x ∈ collectVals (mountPairs v refs) u) :
    x ∈ refs ∧ resolvedRepoUri v x = some u := by
  rw [collectVals] at hx
  rcases List.mem_map.mp hx with ⟨kv, hkv, hsnd⟩
  rcases List.mem_filter.mp hkv with ⟨hmemp, hfst⟩
  rw [mountPairs] at hmemp
  rcases List.mem_filterMap.mp hmemp with ⟨r0, hr0, hf⟩
  cases hres : resolvedRepoUri v r0 with
  | none =>
    rw [hres] at hf
    simp at hf
  | some uri =>
    rw [hres] at hf
    have hf2 : (uri, r0) = kv := by simpa using hf
    have hk : kv.1 = uri := by rw [← hf2]
    have hv2 : kv.2 = r0 := by rw [← hf2]
    have hfu : kv.1 = u := by simpa using hfst
    rw [hv2] at hsnd
    rw [hsnd] at hr0 hres
    have huri : uri = u := by rw [← hk, hfu]
    refine ⟨hr0, ?_⟩
    rw [hres, huri]

theorem collect_mountPairs_cons_none (rest : List String) (v : Volume) (x u : String)
    (hx : resolvedRepoUri v x = none) :
    collectVals (mountPairs v (x :: rest)) u = collectVals (mountPairs v rest) u := by
  simp [mountPairs, List.filterMap_cons, hx]

theorem collect_mountPairs_cons_some (rest : List String) (v : Volume)
    (x u u0 : String) (hx : resolvedRepoUri v x = some u0) :
    collectVals (mountPairs v (x :: rest)) u
      = if u0 = u then x :: collectVals (mountPairs v rest) u
        else collectVals (mountPairs v rest) u := by
  have hpairs : mountPairs v (x :: rest) = (u0, x) :: mountPairs v rest := by
    simp [mountPairs, List.filterMap_cons, hx]
  rw [hpairs, collectVals_cons]

theorem count_collect_mountPairs (refs : List String) (v : Volume) (r u : String)
    (hu : resolvedRepoUri v r = some u) :
    (collectVals (mountPairs v refs) u).count r = refs.count r := by
  induction refs with
  | nil => rfl
  | cons x rest ih =>
    by_cases hx : x = r
    · subst hx
      rw [collect_mountPairs_cons_some rest v x u u hu, if_pos rfl]
      simp [List.count_cons, ih]
    · cases hres : resolvedRepoUri v x with
      | none =>
        rw [collect_mountPairs_cons_none rest v x u hres]
        simp [List.count_cons, hx, ih]
      | some u0 =>
        rw [collect_mountPairs_cons_some rest v x u u0 hres]
        by_cases hu0 : u0 = u
        · rw [if_pos hu0]
          simp [List.count_cons, hx, ih]
        · rw [if_neg hu0]
          simp [List.count_cons, hx, ih]

theorem filter_eq_nil_of_not_mem (l : List String) (u : String) (h : u ∉ l) :
    l.filter (fun k => k = u) = [] := by
  induction l with
  | nil => rfl
  | cons a l ih =>
    have ha : ¬ (a = u) := by
      intro he
      exact h (by simp [he])
    have hl : u ∉ l := fun hm => h (List.mem_cons_of_mem _ hm)
    simp [List.filter_cons, ha, ih hl]

theorem length_filter_eq_one (l : List String) (u : String)
    (hnd : l.Nodup) (hmem : u ∈ l) : (l.filter (fun k => k = u)).length = 1 := by
  induction l with
  | nil => simp at hmem
  | cons a l ih =>
    rcases List.nodup_cons.mp hnd with ⟨hna, hnl⟩
    by_cases ha : a = u
    · subst ha
      rw [List.filter_cons]
      simp [filter_eq_nil_of_not_mem l a hna]
    · have hmem' : u ∈ l := by
        rcases List.mem_cons.mp hmem with he | hm
        · exact absurd he.symm ha
        · exact hm
      simp [List.filter_cons, ha, ih hnl hmem']

theorem mkMountResult_name (u : String) (rs : List String) :
    (mkMountResult u rs).remote_name = u := rfl

theorem length_filter_name (groups : List (String × List String)) (u : String) :
    ((groups.map (fun g => mkMountResult g.1 g.2)).filter
        (fun res => res.remote_name = u)).length
      = ((groups.map Prod.fst).filter (fun k => k = u)).length := by
  induction groups with
  | nil => rfl
  | cons g rest ih =>
    by_cases hg : g.1 = u
    · simp [List.filter_cons, mkMountResult_name, hg, ih]
    · simp [List.filter_cons, mkMountResult_name, hg, ih]

theorem volumeGroups_lookup (refs : List String) (v : Volume) (u : String) :
    groupLookup (volumeGroups refs v) u
      = optExtend none (collectVals (mountPairs v refs) u) := by
  rw [volumeGroups_eq, groupLookup_groupFoldFrom]
  rfl

theorem volumeGroups_keys_nodup (refs : List String) (v : Volume) :
    ((volumeGroups refs v).map Prod.fst).Nodup := by
  rw [volumeGroups_eq]
  exact groupFoldFrom_keys_nodup _ [] (by simp)

theorem volumeGroups_mem_refs (refs : List String) (v : Volume) (k : String)
    (vs : List String) (hg : (k, vs) ∈ volumeGroups refs v) :
    vs = collectVals (mountPairs v refs) k := by
  have hlook := groupLookup_eq_some_of_mem _ _ _ (volumeGroups_keys_nodup refs v) hg
  rw [volumeGroups_lookup] at hlook
  cases hcol : collectVals (mountPairs v refs) k with
  | nil =>
    rw [hcol] at hlook
    simp [optExtend] at hlook
  | cons c cs =>
    rw [hcol] at hlook
    simp [optExtend] at hlook
    exact hlook.symm

/-- C4: when two (or more) requested refs resolve — via whatever symlinks —
to the same canonical repository path on a usable volume, the mount backend
emits exactly one result for that canonical location, and that result's ref
list contains every such ref, rather than one result per ref. -/
theorem C4_mount_coalesces_refs_by_canonical_path (refs : List String) (v : Volume)
    (r1 r2 u : String) (hv : volumeUsable v = true)
    (h1 : r1 ∈ refs) (h2 : r2 ∈ refs)
    (hu1 : resolvedRepoUri v r1 = some u) (hu2 : resolvedRepoUri v r2 = some u) :
    ((processVolume refs v).filter (fun res => res.remote_name = u)).length = 1
    ∧ ∀ res ∈ processVolume refs v, res.remote_name = u →
        r1 ∈ res.refs ∧ r2 ∈ res.refs := by
  have hproc := processVolume_usable refs v hv
  have hc1 : r1 ∈ collectVals (mountPairs v refs) u :=
    mem_collect_mountPairs refs v r1 u h1 hu1
  have hc2 : r2 ∈ collectVals (mountPairs v refs) u :=
    mem_collect_mountPairs refs v r2 u h2 hu2
  have hcolne : collectVals (mountPairs v refs) u ≠ [] := by
    intro he
    rw [he] at hc1
    simp at hc1
  have hlook : groupLookup (volumeGroups refs v) u
      = some (collectVals (mountPairs v refs) u) := by
    rw [volumeGroups_lookup]
    cases hcol : collectVals (mountPairs v refs) u with
    | nil => exact absurd hcol hcolne
    | cons c cs => simp [optExtend]
  constructor
  · rw [hproc, length_filter_name]
    apply length_filter_eq_one _ _ (volumeGroups_keys_nodup refs v)
    have hmem := mem_of_groupLookup_eq_some _ _ _ hlook
    exact List.mem_map_of_mem Prod.fst hmem
  · intro res hres hname
    rw [hproc] at hres
    rcases List.mem_map.mp hres with ⟨g, hg, hgres⟩
    obtain ⟨k, vs⟩ := g
    have hkname : k = u := by
      rw [← hname, ← hgres]
      rfl
    subst hkname
    have hveq : vs = collectVals (mountPairs v refs) k :=
      volumeGroups_mem_refs refs v k vs hg
    have hrefs : res.refs = vs := by
      rw [← hgres]
      rfl
    rw [hrefs, hveq]
    exact ⟨hc1, hc2⟩

/-- A removable volume with refs `a` and `b` resolving, on the volume's own
device 7, to the same canonical repository path. -/
def wVol : Volume :=
  { hasDrive := true, hasMount := true, removable := true, rootOpenOk := true,
    reposOpenOk := true, fstatOk := true, mountDev := 7,
    probe := fun r =>
      if r = "a" then some { isDir := true, st_dev := 7, canonicalPath := "/repo" }
      else if r = "b" then some { isDir := true, st_dev := 7, canonicalPath := "/repo" }
      else none }

theorem C4_mount_coalesces_refs_by_canonical_path_witness :
    ((processVolume ["a", "b"] wVol).filter
        (fun res => res.remote_name = "file:///repo")).length = 1
    ∧ ("a" ∈ (mkMountResult "file:///repo" ["a", "b"]).refs
        ∧ "b" ∈ (mkMountResult "file:///repo" ["a", "b"]).refs) := by
  have h := C4_mount_coalesces_refs_by_canonical_path ["a", "b"] wVol "a" "b"
    "file:///repo" (by decide) (by decide) (by decide) (by decide) (by decide)
  exact ⟨h.1, h.2 (mkMountResult "file:///repo" ["a", "b"]) (by decide) (by decide)⟩

theorem mountPairs_filter_ne (refs : List String) (v : Volume) (r : String)
    (hr : resolvedRepoUri v r = none) :
    mountPairs v (refs.filter (fun x => x ≠ r)) = mountPairs v refs := by
  induction refs with
  | nil => rfl
  | cons x rest ih =>
    by_cases hx : x = r
    · subst hx
      have hdrop : (x :: rest).filter (fun y => y ≠ x) = rest.filter (fun y => y ≠ x) := by
        simp [List.filter_cons]
      rw [hdrop, ih]
      simp [mountPairs, List.filterMap_cons, hr]
    · have hkeep : (x :: rest).filter (fun y => y ≠ r)
          = x :: rest.filter (fun y => y ≠ r) := by
        simp [List.filter_cons, hx]
      rw [hkeep]
      cases hfx : resolvedRepoUri v x with
      | none =>
        simp [mountPairs, List.filterMap_cons, hfx]
        simpa [mountPairs] using ih
      | some uri =>
        simp [mountPairs, List.filterMap_cons, hfx]
        simpa [mountPairs] using ih

theorem processVolume_filter_ne (refs : List String) (v : Volume) (r : String)
    (hr : resolvedRepoUri v r = none) :
    processVolume refs v = processVolume (refs.filter (fun x => x ≠ r)) v := by
  have hvg : volumeGroups (refs.filter (fun x => x ≠ r)) v = volumeGroups refs v := by
    rw [volumeGroups_eq, volumeGroups_eq, mountPairs_filter_ne refs v r hr]
  simp only [processVolume, hvg]

/-- C5: a requested ref whose `.ostree/repos` target lies on a different
device than the volume's mount root is excluded from that volume's results
entirely: no emitted result lists it, the remaining refs are processed
exactly as if the offending ref had not been requested, and the backend call
still completes successfully. -/
theorem C5_cross_device_ref_excluded (refs : List String) (v : Volume) (r : String)
    (inf : ProbeInfo) (hprobe : v.probe r = some inf)
    (hdev : inf.st_dev ≠ v.mountDev) :
    (∀ res ∈ processVolume refs v, r ∉ res.refs)
    ∧ processVolume refs v = processVolume (refs.filter (fun x => x ≠ r)) v
    ∧ (∀ volumes : List Volume,
        ostree_repo_finder_mount_resolve_async refs volumes
          = Except.ok (mountResultsOfVolumes refs volumes)) := by
  have hnone : resolvedRepoUri v r = none := by
    rw [resolvedRepoUri, hprobe]
    cases hd : inf.isDir with
    | false => simp [hd]
    | true => simp [hd, hdev]
  refine ⟨?_, processVolume_filter_ne refs v r hnone, fun volumes => rfl⟩
  intro res hres hrin
  have hres' := mem_processVolume refs v res hres
  rcases List.mem_map.mp hres' with ⟨g, hg, hgres⟩
  obtain ⟨k, vs⟩ := g
  have hveq : vs = collectVals (mountPairs v refs) k :=
    volumeGroups_mem_refs refs v k vs hg
  have hrefs : res.refs = vs := by
    rw [← hgres]
    rfl
  rw [hrefs, hveq] at hrin
  rcases collect_mountPairs_sub refs v r k hrin with ⟨hmem2, hres2⟩
  rw [hnone] at hres2
  exact Option.noConfusion hres2

/-- A removable volume where ref `a` resolves on-device but ref `c` resolves
to a directory on a different device (99 instead of 7). -/
def wVol5 : Volume :=
  { hasDrive := true, hasMount := true, removable := true, rootOpenOk := true,
    reposOpenOk := true, fstatOk := true, mountDev := 7,
    probe := fun r =>
      if r = "a" then some { isDir := true, st_dev := 7, canonicalPath := "/repo" }
      else if r = "c" then some { isDir := true, st_dev := 99, canonicalPath := "/evil" }
      else none }

theorem C5_cross_device_ref_excluded_witness :
    "c" ∉ (mkMountResult "file:///repo" ["a"]).refs
    ∧ processVolume ["a", "c"] wVol5
        = processVolume (["a", "c"].filter (fun x => x ≠ "c")) wVol5 := by
  have h := C5_cross_device_ref_excluded ["a", "c"] wVol5 "c"
    { isDir := true, st_dev := 99, canonicalPath := "/evil" } (by decide) (by decide)
  exact ⟨h.1 (mkMountResult "file:///repo" ["a"]) (by decide), h.2.1⟩

/-! ## Config-backend lemmas -/

/-- The key/value pairs the config backend's nested loops feed into the
grouping table: for each remote whose advertised refs are listable, one
`(remote name, ref)` pair per matching request ref, in request order. -/
def configPairs (refs : List String) : List ConfigRemote → List (String × String)
  | [] => []
  | rem :: rest =>
    (match rem.remote_refs with
     | none => []
     | some rrefs => (refs.filter (fun x => x ∈ rrefs)).map (fun x => (rem.name, x)))
      ++ configPairs refs rest

theorem groupFoldFrom_append (acc : List (String × List String))
    (ps qs : List (String × String)) :
    groupFoldFrom acc (ps ++ qs) = groupFoldFrom (groupFoldFrom acc ps) qs := by
  simp [groupFoldFrom, List.foldl_append]

theorem config_inner_fold (refs : List String) (nm : String) (rrefs : List String)
    (acc : List (String × List String)) :
    refs.foldl (fun acc2 x => if x ∈ rrefs then insertGroup acc2 nm x else acc2) acc
      = groupFoldFrom acc ((refs.filter (fun x => x ∈ rrefs)).map (fun x => (nm, x))) := by
  induction refs generalizing acc with
  | nil => rfl
  | cons x rest ih
  =>
    by_cases hx : x ∈ rrefs
    · rw [List.foldl_cons, if_pos hx]
      have hfc : (x :: rest).filter (fun y => y ∈ rrefs)
          = x :: rest.filter (fun y => y ∈ rrefs) := by
        simp [List.filter_cons, hx]
      rw [hfc, List.map_cons]
      have hstep : groupFoldFrom acc
            ((nm, x) :: (rest.filter (fun y => y ∈ rrefs)).map (fun y => (nm, y)))
          = groupFoldFrom (insertGroup acc nm x)
            ((rest.filter (fun y => y ∈ rrefs)).map (fun y => (nm, y))) := rfl
      rw [hstep]
      exact ih (insertGroup acc nm x)
    · rw [List.foldl_cons, if_neg hx]
      have hfc : (x :: rest).filter (fun y => y ∈ rrefs)
          = rest.filter (fun y => y ∈ rrefs) := by
        simp [List.filter_cons, hx]
      rw [hfc]
      exact ih acc

theorem configGroups_fold_eq (refs : List String) (remotes : List ConfigRemote)
    (acc : List (String × List String)) :
    remotes.foldl
        (fun acc rem =>
          match rem.remote_refs with
          | none => acc
          | some rrefs =>
            refs.foldl
              (fun acc2 x => if x ∈ rrefs then insertGroup acc2 rem.name x else acc2)
              acc)
        acc
      = groupFoldFrom acc (configPairs refs remotes) := by
  induction remotes generalizing acc with
  | nil => rfl
  | cons rem rest ih =>
    cases hrr : rem.remote_refs with
    | none =>
      rw [List.foldl_cons]
      have hp : configPairs refs (rem :: rest) = configPairs refs rest := by
        simp [configPairs, hrr]
      rw [hp, ← ih]
      simp [hrr]
    | some rrefs =>
      rw [List.foldl_cons]
      have hp : configPairs refs (rem :: rest)
          = (refs.filter (fun x => x ∈ rrefs)).map (fun x => (rem.name, x))
            ++ configPairs refs rest := by
        simp [configPairs, hrr]
      rw [hp, groupFoldFrom_append, ← ih, ← config_inner_fold]
      simp [hrr]

theorem configGroups_eq (refs : List String) (remotes : List ConfigRemote) :
    configGroups refs remotes = groupFoldFrom [] (configPairs refs remotes) := by
  rw [configGroups]
  exact configGroups_fold_eq refs remotes []

theorem collect_append (ps qs : List (String × String)) (u : String) :
    collectVals (ps ++ qs) u = collectVals ps u ++ collectVals qs u := by
  simp [collectVals, List.filter_append]

theorem collect_const_key (l : List String) (k u : String) :
    collectVals (l.map (fun x => (k, x))) u = if k = u then l else [] := by
  induction l with
  | nil => by_cases hk : k = u <;> simp [collectVals, hk]
  | cons x l ih =>
    rw [List.map_cons, collectVals_cons, ih]
    by_cases hk : k = u
    · simp [hk]
    · simp [hk]

theorem collect_configPairs_not_mem (refs : List String)
    (remotes : List ConfigRemote) (n : String)
    (h : ∀ rem ∈ remotes, rem.name ≠ n) :
    collectVals (configPairs refs remotes) n = [] := by
  induction remotes with
  | nil => rfl
  | cons rem rest ih =>
    have hrn : rem.name ≠ n := h rem (List.mem_cons_self _ _)
    have hrest := ih (fun r2 hr2 => h r2 (List.mem_cons_of_mem _ hr2))
    cases hrr : rem.remote_refs with
    | none =>
      have hp : configPairs refs (rem :: rest) = configPairs refs rest := by
        simp [configPairs, hrr]
      rw [hp, hrest]
    | some rrefs =>
      have hp : configPairs refs (rem :: rest)
          = (refs.filter (fun x => x ∈ rrefs)).map (fun x => (rem.name, x))
            ++ configPairs refs rest := by
        simp [configPairs, hrr]
      rw [hp, collect_append, collect_const_key, if_neg hrn, hrest]
      rfl

theorem collect_configPairs_eq (refs : List String) (remotes : List ConfigRemote)
    (rem : ConfigRemote) (rrefs : List String)
    (hnd : (remotes.map ConfigRemote.name).Nodup) (hmem : rem ∈ remotes)
    (hrr : rem.remote_refs = some rrefs) :
    collectVals (configPairs refs remotes) rem.name
      = refs.filter (fun x => x ∈ rrefs) := by
  induction remotes with
  | nil => simp at hmem
  | cons rem0 rest ih =>
    rw [List.map_cons] at hnd
    rcases List.nodup_cons.mp hnd with ⟨hn0, hnd'⟩
    rcases List.mem_cons.mp hmem with heq | hmem'
    · subst heq
      have hrest2 : collectVals (configPairs refs rest) rem.name = [] := by
        apply collect_configPairs_not_mem
        intro r2 hr2 heq2
        exact hn0 (heq2 ▸ List.mem_map_of_mem ConfigRemote.name hr2)
      have hp : configPairs refs (rem :: rest)
          = (refs.filter (fun x => x ∈ rrefs)).map (fun x => (rem.name, x))
            ++ configPairs refs rest := by
        simp [configPairs, hrr]
      rw [hp, collect_append, collect_const_key, if_pos rfl, hrest2]
      simp
    · have hne : rem0.name ≠ rem.name := by
        intro he
        exact hn0 (he ▸ List.mem_map_of_mem ConfigRemote.name hmem')
      cases hrr0 : rem0.remote_refs with
      | none =>
        have hp : configPairs refs (rem0 :: rest) = configPairs refs rest := by
          simp [configPairs, hrr0]
        rw [hp]
        exact ih hnd' hmem'
      | some l0 =>
        have hp : configPairs refs (rem0 :: rest)
            = (refs.filter (fun x => x ∈ l0)).map (fun x => (rem0.name, x))
              ++ configPairs refs rest := by
          simp [configPairs, hrr0]
        rw [hp, collect_append, collect_const_key, if_neg hne]
        rw [List.nil_append]
        exact ih hnd' hmem'

theorem configGroups_lookup (refs : List String) (remotes : List ConfigRemote)
    (u : String) :
    groupLookup (configGroups refs remotes) u
      = optExtend none (collectVals (configPairs refs remotes) u) := by
  rw [configGroups_eq, groupLookup_groupFoldFrom]
  rfl

theorem count_filter_keep (l : List String) (p : String → Bool) (r : String)
    (hp : p r = true) : (l.filter p).count r = l.count r := by
  induction l with
  | nil => rfl
  | cons x rest ih =>
    by_cases hx : x = r
    · subst hx
      rw [List.filter_cons, if_pos (by simp [hp])]
      simp [List.count_cons, ih]
    · cases hpx : p x with
      | false =>
        rw [List.filter_cons, if_neg (by simp [hpx])]
        simp [List.count_cons, hx, ih]
      | true =>
        rw [List.filter_cons, if_pos (by simp [hpx])]
        simp [List.count_cons, hx, ih]

theorem mkConfigResult_refs (n : String) (rs : List String) :
    (mkConfigResult n rs).refs = rs := rfl

/-- C10: request-level input validation accepts duplicate entries, and when
a valid ref appears twice in the request both backends keep the repetition:
the mount backend's result for the ref's canonical location lists the ref
twice, and the config backend's result for a remote advertising the ref
lists it twice — the emitted ref collections are lists with repetition, not
sets. -/
theorem C10_duplicate_request_refs_kept (refs : List String) (r : String)
    (v : Volume) (u : String) (remotes : List ConfigRemote) (rem : ConfigRemote)
    (rrefs : List String) (inheritedOk : String → Bool)
    (hvalid : ∀ x ∈ refs, is_valid_ref_name x = true) (hne : refs ≠ [])
    (hcount : refs.count r = 2)
    (hv : volumeUsable v = true) (hu : resolvedRepoUri v r = some u)
    (hnd : (remotes.map ConfigRemote.name).Nodup) (hmem : rem ∈ remotes)
    (hrr : rem.remote_refs = some rrefs) (hrL : r ∈ rrefs)
    (hinh : inheritedOk rem.name = true) :
    is_valid_ref_array refs = true
    ∧ (∃ res ∈ processVolume refs v, res.refs.count r = 2)
    ∧ (∃ res ∈ configResults refs remotes inheritedOk, res.refs.count r = 2) := by
  refine ⟨?_, ?_, ?_⟩
  · cases refs with
    | nil => exact absurd rfl hne
    | cons a l =>
      have harr : is_valid_ref_array (a :: l) = (a :: l).all is_valid_ref_name := rfl
      rw [harr]
      exact List.all_eq_true.mpr hvalid
  · have hcnt : (collectVals (mountPairs v refs) u).count r = 2 := by
      rw [count_collect_mountPairs refs v r u hu, hcount]
    have hcolne : collectVals (mountPairs v refs) u ≠ [] := by
      intro he
      rw [he] at hcnt
      simp at hcnt
    have hlook : groupLookup (volumeGroups refs v) u
        = some (collectVals (mountPairs v refs) u) := by
      rw [volumeGroups_lookup]
      cases hcol : collectVals (mountPairs v refs) u with
      | nil => exact absurd hcol hcolne
      | cons c cs => simp [optExtend]
    have hgmem := mem_of_groupLookup_eq_some _ _ _ hlook
    refine ⟨mkMountResult u (collectVals (mountPairs v refs) u), ?_, hcnt⟩
    rw [processVolume_usable refs v hv]
    exact List.mem_map_of_mem (fun g => mkMountResult g.1 g.2) hgmem
  · have hvs : collectVals (configPairs refs remotes) rem.name
        = refs.filter (fun x => x ∈ rrefs) :=
      collect_configPairs_eq refs remotes rem rrefs hnd hmem hrr
    have hcnt : (refs.filter (fun x => x ∈ rrefs)).count r = 2 := by
      rw [count_filter_keep refs _ r (by simp [hrL]), hcount]
    have hcolne : refs.filter (fun x => x ∈ rrefs) ≠ [] := by
      intro he
      rw [he] at hcnt
      simp at hcnt
    have hlook : groupLookup (configGroups refs remotes) rem.name
        = some (refs.filter (fun x => x ∈ rrefs)) := by
      rw [configGroups_lookup, hvs]
      cases hcol : refs.filter (fun x => x ∈ rrefs) with
      | nil => exact absurd hcol hcolne
      | cons c cs => simp [optExtend]
    have hgmem := mem_of_groupLookup_eq_some _ _ _ hlook
    refine ⟨mkConfigResult rem.name (refs.filter (fun x => x ∈ rrefs)), ?_, hcnt⟩
    rw [configResults]
    exact List.mem_filterMap.mpr
      ⟨(rem.name, refs.filter (fun x => x ∈ rrefs)), hgmem, by simp [hinh]⟩

/-- A configured remote advertising ref `a`. -/
def wRemote : ConfigRemote := { name := "origin", remote_refs := some ["a"] }

theorem C10_duplicate_request_refs_kept_witness :
    is_valid_ref_array ["a", "b", "a"] = true
    ∧ (∃ res ∈ processVolume ["a", "b", "a"] wVol, res.refs.count "a" = 2)
    ∧ (∃ res ∈ configResults ["a", "b", "a"] [wRemote] (fun _ => true),
        res.refs.count "a" = 2) :=
  C10_duplicate_request_refs_kept ["a", "b", "a"] "a" wVol "file:///repo"
    [wRemote] wRemote ["a"] (fun _ => true)
    (by decide) (by decide) (by decide) (by decide) (by decide) (by decide)
    (List.mem_singleton.mpr rfl) rfl (by decide) rfl
